import Mathlib

set_option maxHeartbeats 1000000

/-!
Shallow embedding of `drafts-to-md.py` (a converter from a Drafts JSON
export to Markdown documents with frontmatter), together with proofs about
its title extraction, collision resolution and document writing.

Python dictionaries are modelled as insertion-ordered association lists,
Python mutation of the resolver's two dictionary objects is modelled by
explicit state passing that additionally tracks which object the caller
passed in, and the fallible paths (`RuntimeError`, `IndexError`) are
modelled with `Except` / explicit error constructors.
-/

/-- A timestamp as produced at the external parsing boundary
(`dateutil.parser.isoparse`): calendar and clock fields plus the textual
UTC-offset suffix that `datetime.isoformat()` re-emits (a trailing `Z` in
the input parses to the `+00:00` offset). -/
structure DateTime where
  year : Nat
  month : Nat
  day : Nat
  hour : Nat
  minute : Nat
  second : Nat
  tzText : String
deriving DecidableEq

def pad2 (n : Nat) : String := if n < 10 then "0" ++ toString n else toString n

def pad4 (n : Nat) : String :=
  if n < 10 then "000" ++ toString n
  else if n < 100 then "00" ++ toString n
  else if n < 1000 then "0" ++ toString n
  else toString n

/-- Python `f"{d:%Y-%m-%d}"`. -/
def fmtDate (d : DateTime) : String :=
  pad4 d.year ++ "-" ++ pad2 d.month ++ "-" ++ pad2 d.day

/-- Python `f"{d:%Y-%m-%d %H-%M-%S}"`. -/
def fmtDatetime (d : DateTime) : String :=
  fmtDate d ++ " " ++ pad2 d.hour ++ "-" ++ pad2 d.minute ++ "-" ++ pad2 d.second

/-- Python `datetime.isoformat()` for whole-second, tz-aware values. -/
def isoformat (d : DateTime) : String :=
  pad4 d.year ++ "-" ++ pad2 d.month ++ "-" ++ pad2 d.day ++ "T" ++
    pad2 d.hour ++ ":" ++ pad2 d.minute ++ ":" ++ pad2 d.second ++ d.tzText

/-- `class Note(NamedTuple)`: note and associated metadata (the metadata
dict is modelled as an insertion-ordered association list). -/
structure Note where
  metadata : List (String × String)
  created : DateTime
  modified : DateTime
  content : String
deriving DecidableEq

/-- Python `str.rstrip()` strips these trailing characters by default. -/
def isPyWhitespace (c : Char) : Bool :=
  c = ' ' || c = '\t' || c = '\n' || c = '\r' || c = '\x0B' || c = '\x0C'

/-- Python `str.rstrip()`. -/
def rstrip (s : String) : String := ⟨(s.data.reverse.dropWhile isPyWhitespace).reverse⟩

/-- Python `str.removeprefix`. -/
def removePre (s p : String) : String :=
  if s.data.take p.data.length = p.data then ⟨s.data.drop p.data.length⟩ else s

/-- A Python `dict[str, list[Note]]` in insertion order. -/
abbrev Grouping := List (String × List Note)

def keyList (g : Grouping) : List String := g.map (fun e => e.1)

/-- Membership test `k in working` on the dict. -/
def hasKey : Grouping → String → Bool
  | [], _ => false
  | e :: rest, k => if e.1 = k then true else hasKey rest k

/-- `working[k].append(n)` on a `defaultdict(list)`. -/
def addNote : Grouping → String → Note → Grouping
  | [], k, n => [(k, [n])]
  | e :: rest, k, n => if e.1 = k then (e.1, e.2 ++ [n]) :: rest else e :: addNote rest k n

/-- `working[k].extend(ns)` on a `defaultdict(list)`. -/
def extendNotes : Grouping → String → List Note → Grouping
  | [], k, ns => [(k, ns)]
  | e :: rest, k, ns => if e.1 = k then (e.1, e.2 ++ ns) :: rest else e :: extendNotes rest k ns

def totalNotes (g : Grouping) : Nat := (g.map (fun e => e.2.length)).sum

def allNotes (g : Grouping) : List Note := (g.map (fun e => e.2)).flatten

/-- The string `f"{path} {seqno}"` tried by `_append_seqno`. -/
def seqnoKey (path : String) (i : Nat) : String := path ++ " " ++ toString i

/-- `_prepend_date` from `dedup_paths`. -/
def _prepend_date (path : String) (note : Note) : String :=
  fmtDate note.created ++ " " ++ path

/-- `_prepend_datetime` from `dedup_paths`: if the date was added
previously it is removed and the datetime added. -/
def _prepend_datetime (path : String) (note : Note) : String :=
  fmtDatetime note.created ++ " " ++ removePre path (fmtDate note.created)

/-- The loop body of `_append_seqno`: try `i`, `i+1`, ... while fuel
remains; the fuel 999 below makes this exactly `for seqno in range(1, 1000)`. -/
def seqnoFrom (w : Grouping) (path : String) : Nat → Nat → Except String String
  | _, 0 => .error ("could not dedup path: " ++ path)
  | i, fuel + 1 =>
    if hasKey w (seqnoKey path i) then seqnoFrom w path (i + 1) fuel
    else .ok (seqnoKey path i)

/-- `_append_seqno` from `dedup_paths` (the `Note` argument is unused in
the source as well). -/
def _append_seqno (w : Grouping) (path : String) : Except String String :=
  seqnoFrom w path 1 999

inductive Strat
  | prependDate
  | prependDatetime
  | appendSeqno
deriving DecidableEq

/-- Apply one `uniquify_fn` to a path and note, reading the current
working dict (only `_append_seqno` consults it, and only it can fail). -/
def applyStrat (s : Strat) (w : Grouping) (path : String) (note : Note) : Except String String :=
  match s with
  | .prependDate => .ok (_prepend_date path note)
  | .prependDatetime => .ok (_prepend_datetime path note)
  | .appendSeqno => _append_seqno w path

/-- `for dup in dups: working[uniquify_fn(path, dup).rstrip()].append(dup)`,
threading the growing working dict; the `Nat` counts `uniquify_fn` calls
and the `Option String` carries a raised `RuntimeError`. -/
def popDups (s : Strat) (path : String) : List Note → Grouping → Nat → Grouping × Option String × Nat
  | [], w, c => (w, none, c)
  | d :: rest, w, c =>
    match applyStrat s w path d with
    | .ok np => popDups s path rest (addNote w (rstrip np) d) (c + 1)
    | .error e => (w, some e, c + 1)

/-- One strategy round's population loop over `notes.items()`. -/
def popNotes (s : Strat) : Grouping → Grouping → Nat → Grouping × Option String × Nat
  | [], w, c => (w, none, c)
  | (path, ds) :: rest, w, c =>
    if ds.length > 1 then
      match popDups s path ds w c with
      | (w2, none, c2) => popNotes s rest w2 c2
      | (w2, some e, c2) => (w2, some e, c2)
    else popNotes s rest (extendNotes w path ds) c

/-- Outcome of the collapse attempt: `crash` is the `IndexError` raised by
`dups[0]` on an empty group, `failed` is `result.clear(); break` on a
group that still has duplicates, `done` is a fully built result dict. -/
inductive CollapseRes
  | crash
  | failed
  | done (res : List (String × Note))
deriving DecidableEq

def collapseFrom : Grouping → List (String × Note) → CollapseRes
  | [], acc => .done acc
  | (path, ds) :: rest, acc =>
    if ds.length > 1 then .failed
    else
      match ds with
      | [] => .crash
      | d :: _ => collapseFrom rest (acc ++ [(path, d)])

/-- The result-building check over `working.items()`. -/
def collapse (g : Grouping) : CollapseRes := collapseFrom g []

inductive DedupError
  | seqnoExhausted (msg : String)
  | indexError
  | schemeExhausted (msg : String)
deriving DecidableEq

/-- Full observable outcome of `dedup_paths`: the returned value (or
raised error), the contents of the caller's dict object when the call
ends, whether `working.clear()` was ever executed on the caller's dict
object, and how many `uniquify_fn` applications were performed. -/
structure DedupOut where
  result : Except DedupError (List (String × Note))
  callerFinal : Grouping
  clearedCaller : Bool
  apps : Nat

/-- The `for uniquify_fn in dedup_schemes[dedup_scheme]` loop. `notes` and
`working` are the current contents of the two dict objects; `cin` records
whether the caller's object is currently bound to `notes` (the swap
`notes, working = working, notes` followed by `working.clear()` flips it
and clears the object that was `notes`). -/
def dedupLoop : List Strat → Grouping → Grouping → Bool → Bool → Nat → DedupOut
  | [], notes, working, cin, cl, c =>
    ⟨.error (.schemeExhausted "Could not dedup notes successfully, aborting"),
      if cin then notes else working, cl, c⟩
  | s :: rest, notes, working, cin, cl, c =>
    match popNotes s notes working c with
    | (w2, some e, c2) => ⟨.error (.seqnoExhausted e), if cin then notes else w2, cl, c2⟩
    | (w2, none, c2) =>
      match collapse w2 with
      | .crash => ⟨.error .indexError, if cin then notes else w2, cl, c2⟩
      | .failed => dedupLoop rest w2 [] (!cin) (cl || cin) c2
      | .done res =>
        if res = [] then dedupLoop rest w2 [] (!cin) (cl || cin) c2
        else ⟨.ok res, if cin then notes else w2, cl, c2⟩

inductive Scheme
  | datetime
  | seqno
deriving DecidableEq

def schemeStrats : Scheme → List Strat
  | .datetime => [.prependDate, .prependDatetime, .appendSeqno]
  | .seqno => [.prependDate, .appendSeqno]

/-- `dedup_paths(notes, dedup_scheme)` with full observability. -/
def dedup_pathsFull (notes : Grouping) (sch : Scheme) : DedupOut :=
  dedupLoop (schemeStrats sch) notes [] true false 0

/-- The value returned (or error raised) by `dedup_paths`. -/
def dedup_paths (notes : Grouping) (sch : Scheme) : Except DedupError (List (String × Note)) :=
  (dedup_pathsFull notes sch).result

/-- Contents of the caller's dict object after `dedup_paths` ends. -/
def dedupCallerFinal (notes : Grouping) (sch : Scheme) : Grouping :=
  (dedup_pathsFull notes sch).callerFinal

/-- Whether `working.clear()` ever ran on the caller's dict object. -/
def dedupClearedCaller (notes : Grouping) (sch : Scheme) : Bool :=
  (dedup_pathsFull notes sch).clearedCaller

/-- Number of `uniquify_fn` applications performed. -/
def dedupApps (notes : Grouping) (sch : Scheme) : Nat :=
  (dedup_pathsFull notes sch).apps

/-- Whether the first strategy round of `dedup_paths` fails to produce a
conflict-free mapping (its collapse attempt yields a still-colliding
group, or an empty result dict, which the `if result:` test also treats
as failure). -/
def firstRoundFails (g : Grouping) (sch : Scheme) : Bool :=
  match schemeStrats sch with
  | [] => false
  | s :: _ =>
    match popNotes s g [] 0 with
    | (w1, none, _) => collapse w1 = CollapseRes.failed || collapse w1 = CollapseRes.done []
    | (_, some _, _) => false

/-- `RE_SEP = r"[.\n]"`: the class of title separators. -/
def RE_SEP (c : Char) : Bool := c = '.' || c = '\n'

def MAX_TITLE_LEN : Nat := 40

/-- `re.split(RE_SEP, content, maxsplit=1)`: `some (a, b)` when a
separator occurs (text before / text after the first one), `none` when no
separator occurs (the source then gets a one-element list back). -/
def splitSep : List Char → Option (List Char × List Char)
  | [] => none
  | c :: rest =>
    if RE_SEP c then some ([], rest)
    else
      match splitSep rest with
      | some (a, b) => some (c :: a, b)
      | none => none

/-- The `TITLE_TO_FILENAME` translation table. -/
def TITLE_TO_FILENAME (c : Char) : Char :=
  if c = '/' then '_' else if c = ':' then '-' else c

/-- `title.translate(TITLE_TO_FILENAME)`. -/
def titleTranslate (s : String) : String := ⟨s.data.map TITLE_TO_FILENAME⟩

/-- The title-extraction step of `parse_infile`: candidate key (after
translation) and the note's stored content. -/
def splitTitle (content : String) : String × String :=
  match splitSep content.data with
  | some (a, b) =>
    if a.length < MAX_TITLE_LEN then (titleTranslate ⟨a⟩, ⟨b⟩) else ("", content)
  | none => ("", content)

def METADATA_KEYS : List String :=
  ["created_latitude", "created_longitude", "modified_latitude", "modified_longitude"]

/-- One entry of the exported JSON array, with its two timestamp strings
already parsed at the external `isoparse` boundary; `extras` holds the
entry's remaining fields. -/
structure RawRecord where
  content : String
  created_at : DateTime
  modified_at : DateTime
  extras : List (String × String)
deriving DecidableEq

/-- The per-entry body of `parse_infile`. -/
def parse_record (r : RawRecord) : String × Note :=
  ((splitTitle r.content).1,
    ⟨r.extras.filter (fun kv => METADATA_KEYS.contains kv.1),
      r.created_at, r.modified_at, (splitTitle r.content).2⟩)

/-- `parse_infile`: (path, note) pairs in input order. -/
def parse_infile (rs : List RawRecord) : List (String × Note) := rs.map parse_record

/-- `main`'s grouping loop: `notes_dups[path].append(note)` in order. -/
def groupNotes (l : List (String × Note)) : Grouping :=
  l.foldl (fun g pn => addNote g pn.1 pn.2) []

/-- Python `dict.update` for one key: replace in place or append. -/
def metaUpdate : List (String × String) → String → String → List (String × String)
  | [], k, v => [(k, v)]
  | e :: rest, k, v => if e.1 = k then (k, v) :: rest else e :: metaUpdate rest k v

/-- Association-list lookup (Python `dict[k]` / `dict.get(k)`). -/
def metaLookup (k : String) : List (String × String) → Option String
  | [] => none
  | e :: rest => if e.1 = k then some e.2 else metaLookup k rest

/-- `write_note` runs `note.metadata.update({'created': ..., 'modified':
...})`, mutating the metadata dict held inside the note; this is the
note's state after that call. -/
def write_noteAfter (note : Note) : Note :=
  { note with
      metadata := metaUpdate (metaUpdate note.metadata "created" (isoformat note.created))
        "modified" (isoformat note.modified) }

/-- The document `frontmatter.dump` serializes: metadata header (as
updated by `write_note`) plus the note's content as body. -/
def write_noteDoc (note : Note) : List (String × String) × String :=
  ((write_noteAfter note).metadata, note.content)

/-! Concrete example values used by the end-to-end theorems and witnesses. -/

def dtA : DateTime := ⟨2023, 1, 1, 10, 0, 0, "+00:00"⟩

def dtB : DateTime := ⟨2023, 1, 2, 10, 0, 0, "+00:00"⟩

/-- Scenario A input record. -/
def recA : RawRecord := ⟨"Buy milk. Remember eggs too", dtA, dtA, []⟩

/-- The note scenario A's record parses to. -/
def noteA : Note := ⟨[], dtA, dtA, " Remember eggs too"⟩

def dtD : DateTime := ⟨2023, 5, 17, 9, 30, 0, "+00:00"⟩

/-- A run-on content string with no sentence separator at all. -/
def contentD : String :=
  "a long run-on content string without any sentence separator anywhere in it at all"

/-- Scenario D input record. -/
def recD : RawRecord := ⟨contentD, dtD, dtD, []⟩

/-- The note scenario D's record parses to (empty candidate key). -/
def noteD : Note := ⟨[], dtD, dtD, contentD⟩

/-- A note with empty metadata, for the mutation counterexample. -/
def noteMut : Note := ⟨[], dtA, dtA, "body"⟩

/-- A working dict in which `"x 1"` and `"x 2"` are taken. -/
def gSeqW : Grouping := [("x 1", []), ("x 2", [])]

/-- A colliding grouping: one candidate key, two notes with distinct
creation dates. -/
def gBij : Grouping := [("k", [noteA, noteD])]

/-- The final mapping the resolver produces for `gBij`. -/
def resBij : List (String × Note) := [("2023-01-01 k", noteA), ("2023-05-17 k", noteD)]

/-- A non-colliding grouping: two distinct keys, one note each. -/
def gSing : Grouping := [("a", [noteA]), ("b", [noteD])]

/-- A second note sharing `noteA`'s creation timestamp. -/
def noteA2 : Note := ⟨[], dtA, dtA, "other body"⟩

/-- A grouping whose first round fails: two notes with the same creation
date share one candidate key. -/
def gMut : Grouping := [("k", [noteA, noteA2])]

/-! String helper lemmas. -/

theorem strData_eq {a b : String} (h : a.data = b.data) : a = b := by
  cases a
  cases b
  exact congrArg String.mk h

theorem strData_append (a b : String) : (a ++ b).data = a.data ++ b.data := by
  cases a
  cases b
  rfl

theorem removePre_append (p q : String) : removePre (p ++ q) p = q := by
  unfold removePre
  rw [strData_append]
  rw [if_pos (List.take_left p.data q.data)]
  exact strData_eq (by simp [List.drop_left p.data q.data])

theorem removePre_cases (s p : String) : removePre s p = s ∨ s = p ++ removePre s p := by
  unfold removePre
  by_cases h : s.data.take p.data.length = p.data
  · right
    rw [if_pos h]
    refine (strData_eq ?_).symm
    rw [strData_append]
    conv_rhs => rw [← List.take_append_drop p.data.length s.data]
    rw [h]
  · left
    rw [if_neg h]

/-- C6: `_prepend_datetime` yields the creation timestamp
`YYYY-MM-DD HH-MM-SS`, a space, and the key with a leading `YYYY-MM-DD`
creation-date prefix (when present) stripped; applied after
`_prepend_date` it yields full-timestamp granularity with the creation
date occurring once (the date-only prefix is removed, not stacked — what
remains of the old key is its leading-space residue). -/
theorem prepend_datetime_spec (path : String) (note : Note) :
    _prepend_datetime path note
      = fmtDatetime note.created ++ " " ++ removePre path (fmtDate note.created)
  ∧ _prepend_datetime (_prepend_date path note) note
      = fmtDatetime note.created ++ " " ++ (" " ++ path)
  ∧ (removePre path (fmtDate note.created) = path
      ∨ path = fmtDate note.created ++ removePre path (fmtDate note.created)) := by
  refine ⟨rfl, ?_, removePre_cases path (fmtDate note.created)⟩
  have h : removePre (fmtDate note.created ++ " " ++ path) (fmtDate note.created)
      = " " ++ path := by
    rw [String.append_assoc]
    exact removePre_append _ _
  unfold _prepend_datetime _prepend_date
  rw [h]

/-- C10: called with an empty grouping, `dedup_paths` raises the
scheme-exhaustion error for every scheme instead of returning the empty
mapping: the empty collapse result fails the `if result:` test in every
round. -/
theorem empty_grouping_scheme_exhaustion (sch : Scheme) :
    dedup_paths [] sch
      = .error (.schemeExhausted "Could not dedup notes successfully, aborting")
  ∧ dedup_paths [] sch ≠ .ok [] := by
  cases sch
  · exact ⟨rfl, fun h => Except.noConfusion h⟩
  · exact ⟨rfl, fun h => Except.noConfusion h⟩

/-- C4 (divergence evaluation): a batch whose only record has the empty
candidate key resolves to the final key `""` unchanged — the resolver
never date-prepends a non-colliding group, so the final key is not the
creation date `"2023-05-17"`. -/
theorem lone_empty_key_eval :
    dedup_paths (groupNotes (parse_infile [recD])) Scheme.datetime = .ok [("", noteD)]
  ∧ ("" : String) ≠ fmtDate noteD.created := by
  exact ⟨rfl, by decide⟩

/-- C5 (counterexample): on scenario A's input, the document body the
pipeline writes is `" Remember eggs too"` — the text after the period,
with its leading space kept — not `"Remember eggs too"`. -/
theorem scenarioA_body_counterexample :
    (write_noteDoc (parse_record recA).2).2 = " Remember eggs too"
  ∧ (write_noteDoc (parse_record recA).2).2 ≠ "Remember eggs too" := by
  exact ⟨rfl, by decide⟩

/-- C5 (amended): scenario A produces one document titled `Buy milk`,
body `" Remember eggs too"` (leading space preserved from the split), and
a metadata header containing `created: 2023-01-01T10:00:00+00:00`. -/
theorem scenarioA_amended :
    dedup_paths (groupNotes (parse_infile [recA])) Scheme.datetime = .ok [("Buy milk", noteA)]
  ∧ write_noteDoc noteA
      = ([("created", "2023-01-01T10:00:00+00:00"), ("modified", "2023-01-01T10:00:00+00:00")],
          " Remember eggs too")
  ∧ metaLookup "created" (write_noteDoc noteA).1 = some "2023-01-01T10:00:00+00:00" := by
  exact ⟨rfl, rfl, rfl⟩

/-- C8 (counterexample): `write_note` mutates the Note's metadata mapping
in place — after `write_note` the metadata of a note that started with an
empty mapping is no longer empty. -/
theorem note_mutation_counterexample :
    (write_noteAfter noteMut).metadata ≠ noteMut.metadata := by
  decide

/-! `_append_seqno` lemmas. -/

theorem seqnoFrom_found (w : Grouping) (p : String) :
    ∀ (fuel i k : Nat), i ≤ k → k < i + fuel →
      hasKey w (seqnoKey p k) = false →
      (∀ j, i ≤ j → j < k → hasKey w (seqnoKey p j) = true) →
      seqnoFrom w p i fuel = .ok (seqnoKey p k) := by
  intro fuel
  induction fuel with
  | zero => intro i k h1 h2; omega
  | succ f ih =>
    intro i k h1 h2 hfree hused
    rcases Nat.eq_or_lt_of_le h1 with heq | hlt
    · subst heq
      simp [seqnoFrom, hfree]
    · have hi : hasKey w (seqnoKey p i) = true := hused i le_rfl hlt
      simp only [seqnoFrom, hi, if_true]
      exact ih (i + 1) k hlt (by omega) hfree (fun j hj1 hj2 => hused j (by omega) hj2)

theorem seqnoFrom_exhausted (w : Grouping) (p : String) :
    ∀ (fuel i : Nat), (∀ j, i ≤ j → j < i + fuel → hasKey w (seqnoKey p j) = true) →
      seqnoFrom w p i fuel = .error ("could not dedup path: " ++ p) := by
  intro fuel
  induction fuel with
  | zero => intro i _; rfl
  | succ f ih =>
    intro i hused
    have hi : hasKey w (seqnoKey p i) = true := hused i le_rfl (by omega)
    simp only [seqnoFrom, hi, if_true]
    exact ih (i + 1) (fun j hj1 hj2 => hused j (by omega) (by omega))

/-- C2: `_append_seqno` returns the key built from the current key, a
space, and the smallest integer in [1, 999] not already used as a key in
the current working set; it raises the exhaustion `RuntimeError` exactly
when every integer in that range is taken. -/
theorem append_seqno_spec (w : Grouping) (path : String) :
    (∀ i, seqnoKey path i = path ++ " " ++ toString i)
  ∧ (∀ i, 1 ≤ i → i ≤ 999 → hasKey w (seqnoKey path i) = false →
        (∀ j, 1 ≤ j → j < i → hasKey w (seqnoKey path j) = true) →
        _append_seqno w path = .ok (seqnoKey path i))
  ∧ ((∀ i, 1 ≤ i → i ≤ 999 → hasKey w (seqnoKey path i) = true) →
        _append_seqno w path = .error ("could not dedup path: " ++ path)) := by
  refine ⟨fun i => rfl, ?_, ?_⟩
  · intro i h1 h2 hfree hused
    exact seqnoFrom_found w path 999 1 i h1 (by omega) hfree hused
  · intro hall
    exact seqnoFrom_exhausted w path 999 1 (fun j hj1 hj2 => hall j hj1 (by omega))


/-- Witness for C2: with `"x 1"` and `"x 2"` taken, `_append_seqno`
hands out `"x 3"`. -/
theorem append_seqno_witness : _append_seqno gSeqW "x" = .ok (seqnoKey "x" 3) := by
  refine (append_seqno_spec gSeqW "x").2.1 3 (by decide) (by decide) (by decide) ?_
  intro j h1 h2
  interval_cases j <;> decide

/-! Title-extractor lemmas. -/

theorem splitSep_eq (l : List Char) :
    ∀ a b, splitSep l = some (a, b) →
      (∀ c ∈ a, RE_SEP c = false) ∧ ∃ c, RE_SEP c = true ∧ l = a ++ c :: b := by
  induction l with
  | nil => intro a b h; simp [splitSep] at h
  | cons c rest ih =>
    intro a b h
    cases hc : RE_SEP c with
    | true =>
      simp only [splitSep, hc, if_true, Option.some_inj, Prod.mk.injEq] at h
      obtain ⟨ha, hb⟩ := h
      subst ha
      subst hb
      exact ⟨by simp, c, hc, rfl⟩
    | false =>
      rcases hrest : splitSep rest with _ | ⟨a2, b2⟩
      · simp [splitSep, hc, hrest] at h
      · simp only [splitSep, hc, hrest, Bool.false_eq_true, if_false,
          Option.some_inj, Prod.mk.injEq] at h
        obtain ⟨ha, hb⟩ := h
        subst hb
        obtain ⟨hn, d, hd, hl⟩ := ih a2 b2 hrest
        refine ⟨?_, d, hd, ?_⟩
        · intro x hx
          rw [← ha] at hx
          rcases List.mem_cons.mp hx with hx | hx
          · subst hx; exact hc
          · exact hn x hx
        · rw [← ha, hl]; rfl

/-- C3: the Title Extractor returns, when a period or newline occurs and
the text before the first one is shorter than 40 characters, that prefix
(after character substitution) plus the remainder after the separator;
otherwise — too-long first segment, or no separator at all, and in
particular whenever no separator occurs among the first 40 characters —
the empty candidate key and the content unchanged. -/
theorem title_extractor_spec (content : String) :
    (∀ a b, splitSep content.data = some (a, b) → a.length < MAX_TITLE_LEN →
        splitTitle content = (titleTranslate ⟨a⟩, ⟨b⟩))
  ∧ (∀ a b, splitSep content.data = some (a, b) → ¬ a.length < MAX_TITLE_LEN →
        splitTitle content = ("", content))
  ∧ (splitSep content.data = none → splitTitle content = ("", content))
  ∧ ((∀ c ∈ content.data.take MAX_TITLE_LEN, RE_SEP c = false) →
        splitTitle content = ("", content)) := by
  refine ⟨?_, ?_, ?_, ?_⟩
  · intro a b h hlen
    simp [splitTitle, h, hlen]
  · intro a b h hlen
    simp [splitTitle, h, hlen]
  · intro h
    simp [splitTitle, h]
  · intro hfree
    rcases hsp : splitSep content.data with _ | ⟨a, b⟩
    · simp [splitTitle, hsp]
    · obtain ⟨_, c, hc, hl⟩ := splitSep_eq content.data a b hsp
      by_cases hlen : a.length < MAX_TITLE_LEN
      · exfalso
        have hmem : c ∈ content.data.take MAX_TITLE_LEN := by
          rw [hl, List.take_append_eq_append_take,
            List.take_of_length_le (Nat.le_of_lt hlen)]
          refine List.mem_append.mpr (Or.inr ?_)
          have hpos : 0 < MAX_TITLE_LEN - a.length := by omega
          rcases Nat.exists_eq_add_of_lt hpos with ⟨m, hm⟩
          rw [show MAX_TITLE_LEN - a.length = m + 1 by omega]
          exact List.mem_cons_self c _
        rw [hfree c hmem] at hc
        exact Bool.false_ne_true hc
      · simp [splitTitle, hsp, hlen]

/-- Witness for C3: a content string with no separator at all keeps its
content and gets the empty candidate key. -/
theorem title_extractor_witness :
    splitTitle "run on sentence" = ("", "run on sentence") :=
  (title_extractor_spec "run on sentence").2.2.2 (by decide)

/-! Grouping lemmas: how `addNote` / `extendNotes` affect keys, sizes and
note contents. -/

theorem keyList_cons (e : String × List Note) (g : Grouping) :
    keyList (e :: g) = e.1 :: keyList g := rfl

theorem hasKey_iff (g : Grouping) (k : String) : hasKey g k = true ↔ k ∈ keyList g := by
  induction g with
  | nil => simp [hasKey, keyList]
  | cons e rest ih =>
    rw [keyList_cons, List.mem_cons]
    by_cases h : e.1 = k
    · simp [hasKey, h]
    · rw [show hasKey (e :: rest) k = hasKey rest k by simp [hasKey, h]]
      rw [ih]
      constructor
      · exact fun hm => Or.inr hm
      · rintro (hk | hm)
        · exact absurd hk.symm h
        · exact hm

theorem hasKey_false_iff (g : Grouping) (k : String) :
    hasKey g k = false ↔ k ∉ keyList g := by
  rw [← hasKey_iff]
  cases hasKey g k <;> simp

theorem addNote_keyList_mem (g : Grouping) (k : String) (n : Note)
    (h : hasKey g k = true) : keyList (addNote g k n) = keyList g := by
  induction g with
  | nil => simp [hasKey] at h
  | cons e rest ih =>
    by_cases he : e.1 = k
    · simp [addNote, he, keyList]
    · rw [show hasKey (e :: rest) k = hasKey rest k by simp [hasKey, he]] at h
      simp only [addNote, if_neg he]
      rw [keyList_cons, keyList_cons, ih h]

theorem addNote_keyList_new (g : Grouping) (k : String) (n : Note)
    (h : hasKey g k = false) : keyList (addNote g k n) = keyList g ++ [k] := by
  induction g with
  | nil => simp [addNote, keyList]
  | cons e rest ih =>
    by_cases he : e.1 = k
    · simp [hasKey, he] at h
    · rw [show hasKey (e :: rest) k = hasKey rest k by simp [hasKey, he]] at h
      simp only [addNote, if_neg he]
      rw [keyList_cons, keyList_cons, ih h, List.cons_append]

theorem extendNotes_keyList_mem (g : Grouping) (k : String) (ns : List Note)
    (h : hasKey g k = true) : keyList (extendNotes g k ns) = keyList g := by
  induction g with
  | nil => simp [hasKey] at h
  | cons e rest ih =>
    by_cases he : e.1 = k
    · simp [extendNotes, he, keyList]
    · rw [show hasKey (e :: rest) k = hasKey rest k by simp [hasKey, he]] at h
      simp only [extendNotes, if_neg he]
      rw [keyList_cons, keyList_cons, ih h]

theorem extendNotes_keyList_new (g : Grouping) (k : String) (ns : List Note)
    (h : hasKey g k = false) : keyList (extendNotes g k ns) = keyList g ++ [k] := by
  induction g with
  | nil => simp [extendNotes, keyList]
  | cons e rest ih =>
    by_cases he : e.1 = k
    · simp [hasKey, he] at h
    · rw [show hasKey (e :: rest) k = hasKey rest k by simp [hasKey, he]] at h
      simp only [extendNotes, if_neg he]
      rw [keyList_cons, keyList_cons, ih h, List.cons_append]

theorem addNote_keys_nodup (g : Grouping) (k : String) (n : Note)
    (h : (keyList g).Nodup) : (keyList (addNote g k n)).Nodup := by
  cases hk : hasKey g k
  · rw [addNote_keyList_new g k n hk]
    rw [List.nodup_append]
    exact ⟨h, List.nodup_singleton k,
      by simpa using (hasKey_false_iff g k).mp hk⟩
  · rw [addNote_keyList_mem g k n hk]
    exact h

theorem extendNotes_keys_nodup (g : Grouping) (k : String) (ns : List Note)
    (h : (keyList g).Nodup) : (keyList (extendNotes g k ns)).Nodup := by
  cases hk : hasKey g k
  · rw [extendNotes_keyList_new g k ns hk]
    rw [List.nodup_append]
    exact ⟨h, List.nodup_singleton k,
      by simpa using (hasKey_false_iff g k).mp hk⟩
  · rw [extendNotes_keyList_mem g k ns hk]
    exact h

theorem totalNotes_cons (e : String × List Note) (g : Grouping) :
    totalNotes (e :: g) = e.2.length + totalNotes g := by
  simp [totalNotes]

theorem allNotes_cons (e : String × List Note) (g : Grouping) :
    allNotes (e :: g) = e.2 ++ allNotes g := by
  simp [allNotes]

theorem totalNotes_pair (p : String) (ds : List Note) (g : Grouping) :
    totalNotes ((p, ds) :: g) = ds.length + totalNotes g :=
  totalNotes_cons (p, ds) g

theorem allNotes_pair (p : String) (ds : List Note) (g : Grouping) :
    allNotes ((p, ds) :: g) = ds ++ allNotes g :=
  allNotes_cons (p, ds) g

theorem addNote_totalNotes (g : Grouping) (k : String) (n : Note) :
    totalNotes (addNote g k n) = totalNotes g + 1 := by
  induction g with
  | nil => simp [addNote, totalNotes]
  | cons e rest ih =>
    by_cases he : e.1 = k
    · simp only [addNote, if_pos he]
      rw [totalNotes_cons, totalNotes_cons]
      simp only [List.length_append, List.length_singleton]
      omega
    · simp only [addNote, if_neg he]
      rw [totalNotes_cons, totalNotes_cons, ih]
      omega

theorem extendNotes_totalNotes (g : Grouping) (k : String) (ns : List Note) :
    totalNotes (extendNotes g k ns) = totalNotes g + ns.length := by
  induction g with
  | nil => simp [extendNotes, totalNotes]
  | cons e rest ih =>
    by_cases he : e.1 = k
    · simp only [extendNotes, if_pos he]
      rw [totalNotes_cons, totalNotes_cons]
      simp only [List.length_append]
      omega
    · simp only [extendNotes, if_neg he]
      rw [totalNotes_cons, totalNotes_cons, ih]
      omega

theorem addNote_allNotes (g : Grouping) (k : String) (n : Note) :
    (allNotes (addNote g k n)).Perm (n :: allNotes g) := by
  induction g with
  | nil => simp [addNote, allNotes]
  | cons e rest ih =>
    by_cases he : e.1 = k
    · simp only [addNote, if_pos he]
      rw [allNotes_cons, allNotes_cons, List.append_assoc]
      show (e.2 ++ (n :: allNotes rest)).Perm (n :: (e.2 ++ allNotes rest))
      exact List.perm_middle
    · simp only [addNote, if_neg he]
      rw [allNotes_cons, allNotes_cons]
      exact (ih.append_left e.2).trans List.perm_middle

theorem extendNotes_allNotes (g : Grouping) (k : String) (ns : List Note) :
    (allNotes (extendNotes g k ns)).Perm (ns ++ allNotes g) := by
  induction g with
  | nil => simp [extendNotes, allNotes]
  | cons e rest ih =>
    by_cases he : e.1 = k
    · simp only [extendNotes, if_pos he]
      rw [allNotes_cons, allNotes_cons, List.append_assoc]
      exact List.perm_append_comm_assoc e.2 ns (allNotes rest)
    · simp only [extendNotes, if_neg he]
      rw [allNotes_cons, allNotes_cons]
      exact (ih.append_left e.2).trans (List.perm_append_comm_assoc e.2 ns (allNotes rest))

/-! Round-population lemmas. -/

theorem popDups_ok (s : Strat) (p : String) :
    ∀ (ds : List Note) (w : Grouping) (c c2 : Nat) (w2 : Grouping),
      popDups s p ds w c = (w2, none, c2) →
      totalNotes w2 = totalNotes w + ds.length
      ∧ (allNotes w2).Perm (ds ++ allNotes w)
      ∧ ((keyList w).Nodup → (keyList w2).Nodup) := by
  intro ds
  induction ds with
  | nil =>
    intro w c c2 w2 h
    simp only [popDups, Prod.mk.injEq] at h
    obtain ⟨hw, _, _⟩ := h
    subst hw
    exact ⟨by simp, by simp, fun hh => hh⟩
  | cons d rest ih =>
    intro w c c2 w2 h
    cases happ : applyStrat s w p d with
    | error e =>
      simp only [popDups, happ, Prod.mk.injEq] at h
      exact absurd h.2.1 (by simp)
    | ok np =>
      simp only [popDups, happ] at h
      obtain ⟨h1, h2, h3⟩ := ih (addNote w (rstrip np) d) (c + 1) c2 w2 h
      refine ⟨?_, ?_, ?_⟩
      · rw [h1, addNote_totalNotes]
        simp only [List.length_cons]
        omega
      · refine h2.trans ?_
        refine ((addNote_allNotes w (rstrip np) d).append_left rest).trans ?_
        exact List.perm_middle
      · exact fun hnd => h3 (addNote_keys_nodup w (rstrip np) d hnd)

theorem popNotes_ok (s : Strat) :
    ∀ (gl : Grouping) (w : Grouping) (c c2 : Nat) (w2 : Grouping),
      popNotes s gl w c = (w2, none, c2) →
      totalNotes w2 = totalNotes w + totalNotes gl
      ∧ (allNotes w2).Perm (allNotes gl ++ allNotes w)
      ∧ ((keyList w).Nodup → (keyList w2).Nodup) := by
  intro gl
  induction gl with
  | nil =>
    intro w c c2 w2 h
    simp only [popNotes, Prod.mk.injEq] at h
    obtain ⟨hw, _, _⟩ := h
    subst hw
    exact ⟨by simp [totalNotes], by simp [allNotes], fun hh => hh⟩
  | cons e rest ih =>
    intro w c c2 w2 h
    obtain ⟨p, ds⟩ := e
    by_cases hlen : ds.length > 1
    · rw [show popNotes s ((p, ds) :: rest) w c
          = (match popDups s p ds w c with
             | (wa, none, ca) => popNotes s rest wa ca
             | (wa, some e, ca) => (wa, some e, ca)) by simp [popNotes, hlen]] at h
      rcases hpd : popDups s p ds w c with ⟨wa, ea, ca⟩
      rw [hpd] at h
      cases ea with
      | some e2 => simp only [Prod.mk.injEq] at h; exact absurd h.2.1 (by simp)
      | none =>
        simp only at h
        obtain ⟨q1, q2, q3⟩ := popDups_ok s p ds w c ca wa hpd
        obtain ⟨r1, r2, r3⟩ := ih wa ca c2 w2 h
        refine ⟨?_, ?_, fun hnd => r3 (q3 hnd)⟩
        · rw [r1, q1, totalNotes_pair]
          omega
        · refine r2.trans ?_
          rw [allNotes_pair, List.append_assoc]
          exact ((q2.append_left (allNotes rest)).trans
            (List.perm_append_comm_assoc (allNotes rest) ds (allNotes w)))
    · rw [show popNotes s ((p, ds) :: rest) w c
          = popNotes s rest (extendNotes w p ds) c by simp [popNotes, hlen]] at h
      obtain ⟨r1, r2, r3⟩ := ih (extendNotes w p ds) c c2 w2 h
      refine ⟨?_, ?_, fun hnd => r3 (extendNotes_keys_nodup w p ds hnd)⟩
      · rw [r1, extendNotes_totalNotes, totalNotes_pair]
        omega
      · refine r2.trans ?_
        rw [allNotes_pair, List.append_assoc]
        exact (((extendNotes_allNotes w p ds).append_left (allNotes rest)).trans
          (List.perm_append_comm_assoc (allNotes rest) ds (allNotes w)))

/-! Collapse lemmas. -/

theorem collapseFrom_done :
    ∀ (g : Grouping) (acc res : List (String × Note)),
      collapseFrom g acc = .done res →
      ∃ r, res = acc ++ r
        ∧ r.map Prod.fst = keyList g
        ∧ r.map Prod.snd = allNotes g
        ∧ g = r.map (fun e => (e.1, [e.2]))
        ∧ totalNotes g = g.length ∧ r.length = g.length := by
  intro g
  induction g with
  | nil =>
    intro acc res h
    simp only [collapseFrom, CollapseRes.done.injEq] at h
    exact ⟨[], by simp [h.symm], by simp [keyList], by simp [allNotes],
      by simp, by simp [totalNotes], by simp⟩
  | cons e rest ih =>
    intro acc res h
    obtain ⟨p, ds⟩ := e
    by_cases hlen : ds.length > 1
    · rw [show collapseFrom ((p, ds) :: rest) acc = .failed by
        simp [collapseFrom, hlen]] at h
      exact absurd h (by simp)
    · cases ds with
      | nil =>
        rw [show collapseFrom ((p, ([] : List Note)) :: rest) acc = .crash by
          simp [collapseFrom]] at h
        exact absurd h (by simp)
      | cons d tail =>
        have htail : tail = [] := by
          simp only [List.length_cons, gt_iff_lt] at hlen
          have : tail.length = 0 := by omega
          exact List.eq_nil_of_length_eq_zero this
        subst htail
        rw [show collapseFrom ((p, [d]) :: rest) acc
            = collapseFrom rest (acc ++ [(p, d)]) by simp [collapseFrom]] at h
        obtain ⟨r2, hr2, hk, ha, hg, ht, hl⟩ := ih (acc ++ [(p, d)]) res h
        refine ⟨(p, d) :: r2, ?_, ?_, ?_, ?_, ?_, ?_⟩
        · rw [hr2, List.append_assoc]
          rfl
        · rw [keyList_cons]
          simp only [List.map_cons, hk]
        · rw [allNotes_cons]
          simp only [List.map_cons, ha]
          rfl
        · simp only [List.map_cons]
          rw [← hg]
        · rw [totalNotes_pair, ht]
          have h1 : ([] : List Note).length = 0 := rfl
          simp only [List.length_cons]
          omega
        · simp [hl]

/-! Resolver-loop invariant and the bijection theorem. -/

theorem totalNotes_nil : totalNotes [] = 0 := rfl

theorem allNotes_nil : allNotes [] = [] := rfl

theorem keyList_nil : keyList [] = [] := rfl

theorem dedupLoop_ok :
    ∀ (strats : List Strat) (notes working : Grouping) (cin cl : Bool) (c : Nat)
      (res : List (String × Note)),
      (keyList working).Nodup →
      (dedupLoop strats notes working cin cl c).result = .ok res →
      (res.map Prod.fst).Nodup
      ∧ res.length = totalNotes notes + totalNotes working
      ∧ (res.map Prod.snd).Perm (allNotes notes ++ allNotes working) := by
  intro strats
  induction strats with
  | nil =>
    intro notes working cin cl c res hnd h
    simp [dedupLoop] at h
  | cons s rest ih =>
    intro notes working cin cl c res hnd h
    rcases hpn : popNotes s notes working c with ⟨w2, e2, c2⟩
    cases e2 with
    | some e =>
      simp only [dedupLoop, hpn] at h
      simp at h
    | none =>
      simp only [dedupLoop, hpn] at h
      obtain ⟨q1, q2, q3⟩ := popNotes_ok s notes working c c2 w2 hpn
      rcases hcol : collapse w2 with _ | _ | res2
      · rw [hcol] at h
        simp at h
      · rw [hcol] at h
        obtain ⟨r1, r2, r3⟩ := ih w2 [] (!cin) (cl || cin) c2 res (by simp [keyList]) h
        refine ⟨r1, ?_, ?_⟩
        · rw [r2, totalNotes_nil, q1]
          omega
        · rw [allNotes_nil, List.append_nil] at r3
          refine r3.trans ?_
          exact q2
      · rw [hcol] at h
        dsimp only at h
        by_cases hres2 : res2 = []
        · rw [if_pos hres2] at h
          obtain ⟨r1, r2, r3⟩ := ih w2 [] (!cin) (cl || cin) c2 res (by simp [keyList]) h
          refine ⟨r1, ?_, ?_⟩
          · rw [r2, totalNotes_nil, q1]
            omega
          · rw [allNotes_nil, List.append_nil] at r3
            exact r3.trans q2
        · rw [if_neg hres2] at h
          replace h : res2 = res := by
            simpa using h
          subst h
          obtain ⟨r, hr, hk, ha, _, ht, hl⟩ := collapseFrom_done w2 [] res2 hcol
          rw [List.nil_append] at hr
          subst hr
          refine ⟨?_, ?_, ?_⟩
          · rw [hk]
            exact q3 hnd
          · have hw2 : totalNotes w2 = totalNotes working + totalNotes notes := q1
            omega
          · rw [ha]
            exact q2

/-- C1: for every input grouping of non-empty groups and every scheme,
whenever the Collision Resolver returns a final mapping, it is a
bijection between input Notes and output keys: every output key is
distinct, the number of output keys equals the total number of input
Notes, and the output Notes are exactly the input Notes (each appearing
under exactly one output key). -/
theorem resolver_bijection (g : Grouping) (sch : Scheme) (res : List (String × Note))
    (_hne : ∀ e ∈ g, e.2 ≠ []) (hok : dedup_paths g sch = .ok res) :
    (res.map Prod.fst).Nodup
  ∧ res.length = totalNotes g
  ∧ (res.map Prod.snd).Perm (allNotes g) := by
  obtain ⟨r1, r2, r3⟩ :=
    dedupLoop_ok (schemeStrats sch) g [] true false 0 res (by simp [keyList]) hok
  refine ⟨r1, ?_, ?_⟩
  · rw [r2, totalNotes_nil]
    omega
  · rw [allNotes_nil, List.append_nil] at r3
    exact r3


/-- Witness for C1 at a concrete colliding grouping. -/
theorem resolver_bijection_witness :
    (resBij.map Prod.fst).Nodup
  ∧ resBij.length = totalNotes gBij
  ∧ (resBij.map Prod.snd).Perm (allNotes gBij) :=
  resolver_bijection gBij Scheme.datetime resBij (by decide) rfl

/-! Non-colliding input: pass-through lemmas. -/

theorem extendNotes_append (w : Grouping) (p : String) (ds : List Note)
    (h : hasKey w p = false) : extendNotes w p ds = w ++ [(p, ds)] := by
  induction w with
  | nil => simp [extendNotes]
  | cons e rest ih =>
    by_cases he : e.1 = p
    · rw [show hasKey (e :: rest) p = true by simp [hasKey, he]] at h
      exact absurd h (by simp)
    · rw [show hasKey (e :: rest) p = hasKey rest p by simp [hasKey, he]] at h
      simp only [extendNotes, if_neg he, List.cons_append]
      rw [ih h]

theorem popNotes_pass (s : Strat) :
    ∀ (gl w : Grouping) (c : Nat),
      (∀ e ∈ gl, ¬ e.2.length > 1) →
      (keyList gl).Nodup →
      (∀ k, k ∈ keyList gl → hasKey w k = false) →
      popNotes s gl w c = (w ++ gl, none, c) := by
  intro gl
  induction gl with
  | nil =>
    intro w c _ _ _
    simp [popNotes]
  | cons e rest ih =>
    intro w c hone hnd hdisj
    obtain ⟨p, ds⟩ := e
    have hp : ¬ ds.length > 1 := hone (p, ds) (List.mem_cons_self _ _)
    have hkp : hasKey w p = false := hdisj p (by rw [keyList_cons]; exact List.mem_cons_self _ _)
    rw [show popNotes s ((p, ds) :: rest) w c
        = popNotes s rest (extendNotes w p ds) c by simp [popNotes, hp]]
    rw [extendNotes_append w p ds hkp]
    rw [keyList_cons] at hnd
    have hnotin : p ∉ keyList rest := (List.nodup_cons.mp hnd).1
    rw [ih (w ++ [(p, ds)]) c
      (fun e he => hone e (List.mem_cons_of_mem _ he))
      ((List.nodup_cons.mp hnd).2)
      ?_]
    · rw [List.append_assoc]
      rfl
    · intro k hk
      rw [hasKey_false_iff]
      have h1 : k ∉ keyList w := (hasKey_false_iff w k).mp
        (hdisj k (by rw [keyList_cons]; exact List.mem_cons_of_mem _ hk))
      have h2 : k ≠ p := fun hkp2 => hnotin (hkp2 ▸ hk)
      intro hmem
      rw [show keyList (w ++ [(p, ds)]) = keyList w ++ [p] by simp [keyList]] at hmem
      rcases List.mem_append.mp hmem with hm | hm
      · exact h1 hm
      · exact h2 (by simpa using hm)

theorem collapse_singletons :
    ∀ (g : Grouping) (acc : List (String × Note)),
      (∀ e ∈ g, ∃ n, e.2 = [n]) →
      ∃ r, collapseFrom g acc = .done (acc ++ r) ∧ g = r.map (fun e => (e.1, [e.2])) := by
  intro g
  induction g with
  | nil =>
    intro acc _
    exact ⟨[], by simp [collapseFrom], by simp⟩
  | cons e rest ih =>
    intro acc hone
    obtain ⟨p, ds⟩ := e
    obtain ⟨n, hn⟩ := hone (p, ds) (List.mem_cons_self _ _)
    simp only at hn
    subst hn
    obtain ⟨r2, hr2, hg2⟩ := ih (acc ++ [(p, n)])
      (fun e he => hone e (List.mem_cons_of_mem _ he))
    refine ⟨(p, n) :: r2, ?_, ?_⟩
    · rw [show collapseFrom ((p, [n]) :: rest) acc
          = collapseFrom rest (acc ++ [(p, n)]) by simp [collapseFrom]]
      rw [hr2, List.append_assoc]
      rfl
    · simp only [List.map_cons]
      rw [← hg2]

/-- C7 (amended): for every non-empty grouping with distinct candidate
keys in which every group holds exactly one Note, `dedup_paths` applies
zero strategy transforms, leaves the caller's dict untouched (never
cleared), and returns the input grouping unchanged as the final mapping. -/
theorem noncolliding_identity (g : Grouping) (sch : Scheme)
    (hne : g ≠ []) (hnd : (keyList g).Nodup) (hone : ∀ e ∈ g, ∃ n, e.2 = [n]) :
    ∃ res, dedup_pathsFull g sch = ⟨.ok res, g, false, 0⟩
      ∧ g = res.map (fun e => (e.1, [e.2])) := by
  obtain ⟨s1, rest, hstr⟩ : ∃ s1 rest, schemeStrats sch = s1 :: rest := by
    cases sch
    · exact ⟨_, _, rfl⟩
    · exact ⟨_, _, rfl⟩
  have hsingle : ∀ e ∈ g, ¬ e.2.length > 1 := by
    intro e he
    obtain ⟨n, hn⟩ := hone e he
    simp [hn]
  have hpop : popNotes s1 g [] 0 = ([] ++ g, none, 0) :=
    popNotes_pass s1 g [] 0 hsingle hnd (fun k _ => rfl)
  rw [List.nil_append] at hpop
  obtain ⟨r, hcol, hmap⟩ := collapse_singletons g [] hone
  rw [List.nil_append] at hcol
  have hrne : ¬ r = [] := by
    intro h0
    rw [h0] at hmap
    simp at hmap
    exact hne hmap
  refine ⟨r, ?_, hmap⟩
  unfold dedup_pathsFull
  rw [hstr]
  simp only [dedupLoop, hpop]
  rw [show collapse g = .done r from hcol]
  dsimp only
  rw [if_neg hrne]
  simp

/-- C7 (counterexample): the empty grouping satisfies "all candidate keys
already have exactly one Note" vacuously, yet the resolver raises the
scheme-exhaustion error instead of returning the (empty) input grouping. -/
theorem noncolliding_empty_counterexample :
    dedup_paths ([] : Grouping) Scheme.datetime
      = .error (.schemeExhausted "Could not dedup notes successfully, aborting") := rfl


/-- Witness for C7 (amended) at a concrete non-colliding grouping. -/
theorem noncolliding_identity_witness :
    ∃ res, dedup_pathsFull gSing Scheme.datetime = ⟨.ok res, gSing, false, 0⟩
      ∧ gSing = res.map (fun e => (e.1, [e.2])) := by
  refine noncolliding_identity gSing Scheme.datetime (by decide) (by decide) ?_
  intro e he
  rcases List.mem_cons.mp he with h | h
  · exact ⟨noteA, by rw [h]⟩
  · rcases List.mem_cons.mp h with h2 | h2
    · exact ⟨noteD, by rw [h2]⟩
    · simp at h2

/-! Metadata-update lemmas and the amended immutability theorem. -/

theorem metaLookup_metaUpdate_self (m : List (String × String)) (k v : String) :
    metaLookup k (metaUpdate m k v) = some v := by
  induction m with
  | nil => simp [metaUpdate, metaLookup]
  | cons e rest ih =>
    by_cases he : e.1 = k
    · simp [metaUpdate, he, metaLookup]
    · simp only [metaUpdate, if_neg he, metaLookup]
      exact ih

theorem metaLookup_metaUpdate_other (m : List (String × String)) (k v k2 : String)
    (h : k2 ≠ k) : metaLookup k2 (metaUpdate m k v) = metaLookup k2 m := by
  induction m with
  | nil =>
    simp only [metaUpdate, metaLookup]
    rw [if_neg (fun hh => h hh.symm)]
  | cons e rest ih =>
    by_cases he : e.1 = k
    · simp only [metaUpdate, if_pos he, metaLookup]
      rw [if_neg (fun hh => h hh.symm)]
      rw [if_neg (show ¬ e.1 = k2 from fun hh => h (hh.symm.trans he))]
    · simp only [metaUpdate, if_neg he, metaLookup]
      by_cases he2 : e.1 = k2
      · rw [if_pos he2, if_pos he2]
      · rw [if_neg he2, if_neg he2]
        exact ih

/-- C8 (amended): a Note's timestamps and content are never modified and
resolution passes every Note through untouched, but `write_note` mutates
the Note's metadata mapping in place: it adds (or overwrites) the
`created` and `modified` entries and leaves every other entry unchanged. -/
theorem note_immutability_amended :
    (∀ (note : Note),
        (write_noteAfter note).created = note.created
      ∧ (write_noteAfter note).modified = note.modified
      ∧ (write_noteAfter note).content = note.content
      ∧ metaLookup "created" (write_noteAfter note).metadata = some (isoformat note.created)
      ∧ metaLookup "modified" (write_noteAfter note).metadata = some (isoformat note.modified)
      ∧ (∀ k, k ≠ "created" → k ≠ "modified" →
          metaLookup k (write_noteAfter note).metadata = metaLookup k note.metadata))
  ∧ (∀ (g : Grouping) (sch : Scheme) (res : List (String × Note)),
      dedup_paths g sch = .ok res → ∀ e ∈ res, e.2 ∈ allNotes g) := by
  constructor
  · intro note
    refine ⟨rfl, rfl, rfl, ?_, ?_, ?_⟩
    · show metaLookup "created"
        (metaUpdate (metaUpdate note.metadata "created" (isoformat note.created))
          "modified" (isoformat note.modified)) = _
      rw [metaLookup_metaUpdate_other _ _ _ _ (by decide)]
      exact metaLookup_metaUpdate_self note.metadata "created" (isoformat note.created)
    · exact metaLookup_metaUpdate_self _ "modified" (isoformat note.modified)
    · intro k hk1 hk2
      show metaLookup k
        (metaUpdate (metaUpdate note.metadata "created" (isoformat note.created))
          "modified" (isoformat note.modified)) = _
      rw [metaLookup_metaUpdate_other _ _ _ _ hk2]
      exact metaLookup_metaUpdate_other _ _ _ _ hk1
  · intro g sch res hok e he
    obtain ⟨_, _, r3⟩ :=
      dedupLoop_ok (schemeStrats sch) g [] true false 0 res (by simp [keyList]) hok
    rw [allNotes_nil, List.append_nil] at r3
    exact r3.mem_iff.mp (List.mem_map_of_mem Prod.snd he)

/-- Witness for C8 (amended): an unrelated metadata key survives
`write_note` unchanged on a concrete note. -/
theorem note_immutability_witness :
    metaLookup "x" (write_noteAfter noteMut).metadata = metaLookup "x" noteMut.metadata :=
  (note_immutability_amended.1 noteMut).2.2.2.2.2 "x" (by decide) (by decide)

/-! Caller-dict mutation lemmas. -/

theorem dedupLoop_cleared_mono :
    ∀ (strats : List Strat) (notes working : Grouping) (cin : Bool) (c : Nat),
      (dedupLoop strats notes working cin true c).clearedCaller = true := by
  intro strats
  induction strats with
  | nil => intro notes working cin c; rfl
  | cons s rest ih =>
    intro notes working cin c
    rcases hpn : popNotes s notes working c with ⟨w2, e2, c2⟩
    cases e2 with
    | some e => simp [dedupLoop, hpn]
    | none =>
      simp only [dedupLoop, hpn]
      rcases hcol : collapse w2 with _ | _ | res2
      · rfl
      · dsimp only
        rw [Bool.true_or]
        exact ih w2 [] (!cin) c2
      · dsimp only
        by_cases hres2 : res2 = []
        · rw [if_pos hres2, Bool.true_or]
          exact ih w2 [] (!cin) c2
        · rw [if_neg hres2]

theorem popDups_sub (s : Strat) (p : String) :
    ∀ (ds : List Note) (w : Grouping) (c : Nat),
      (allNotes (popDups s p ds w c).1).Subperm (ds ++ allNotes w) := by
  intro ds
  induction ds with
  | nil =>
    intro w c
    exact (List.Perm.refl (allNotes w)).subperm.trans
      (List.sublist_append_right [] (allNotes w)).subperm
  | cons d rest ih =>
    intro w c
    cases happ : applyStrat s w p d with
    | error e =>
      simp only [popDups, happ]
      exact (List.sublist_append_right (d :: rest) (allNotes w)).subperm
    | ok np =>
      simp only [popDups, happ]
      refine (ih (addNote w (rstrip np) d) (c + 1)).trans ?_
      refine (((addNote_allNotes w (rstrip np) d).append_left rest).subperm).trans ?_
      exact (List.perm_middle).subperm

theorem popNotes_sub (s : Strat) :
    ∀ (gl w : Grouping) (c : Nat),
      (allNotes (popNotes s gl w c).1).Subperm (allNotes gl ++ allNotes w) := by
  intro gl
  induction gl with
  | nil =>
    intro w c
    exact (List.sublist_append_right (allNotes []) (allNotes w)).subperm
  | cons e rest ih =>
    intro w c
    obtain ⟨p, ds⟩ := e
    by_cases hlen : ds.length > 1
    · rw [show popNotes s ((p, ds) :: rest) w c
          = (match popDups s p ds w c with
             | (wa, none, ca) => popNotes s rest wa ca
             | (wa, some e, ca) => (wa, some e, ca)) by simp [popNotes, hlen]]
      rcases hpd : popDups s p ds w c with ⟨wa, ea, ca⟩
      have hwa : (allNotes wa).Subperm (ds ++ allNotes w) := by
        have := popDups_sub s p ds w c
        rw [hpd] at this
        exact this
      cases ea with
      | some e2 =>
        dsimp only
        refine hwa.trans ?_
        rw [allNotes_pair, List.append_assoc]
        refine ((List.subperm_append_left ds).mpr
          (List.sublist_append_right (allNotes rest) (allNotes w)).subperm)
      | none =>
        dsimp only
        refine (ih wa ca).trans ?_
        refine ((List.subperm_append_left (allNotes rest)).mpr hwa).trans ?_
        rw [allNotes_pair, List.append_assoc]
        exact (List.perm_append_comm_assoc (allNotes rest) ds (allNotes w)).subperm
    · rw [show popNotes s ((p, ds) :: rest) w c
          = popNotes s rest (extendNotes w p ds) c by simp [popNotes, hlen]]
      refine (ih (extendNotes w p ds) c).trans ?_
      refine ((List.subperm_append_left (allNotes rest)).mpr
        (extendNotes_allNotes w p ds).subperm).trans ?_
      rw [allNotes_pair, List.append_assoc]
      exact (List.perm_append_comm_assoc (allNotes rest) ds (allNotes w)).subperm

theorem dedupLoop_caller_sub :
    ∀ (strats : List Strat) (notes working : Grouping) (cin cl : Bool) (c : Nat),
      (allNotes ((dedupLoop strats notes working cin cl c).callerFinal)).Subperm
        (allNotes notes ++ allNotes working) := by
  intro strats
  induction strats with
  | nil =>
    intro notes working cin cl c
    cases cin
    · exact (List.sublist_append_right (allNotes notes) (allNotes working)).subperm
    · exact (List.sublist_append_left (allNotes notes) (allNotes working)).subperm
  | cons s rest ih =>
    intro notes working cin cl c
    rcases hpn : popNotes s notes working c with ⟨w2, e2, c2⟩
    have hw2 : (allNotes w2).Subperm (allNotes notes ++ allNotes working) := by
      have := popNotes_sub s notes working c
      rw [hpn] at this
      exact this
    cases e2 with
    | some e =>
      simp only [dedupLoop, hpn]
      cases cin
      · exact hw2
      · exact (List.sublist_append_left (allNotes notes) (allNotes working)).subperm
    | none =>
      simp only [dedupLoop, hpn]
      rcases hcol : collapse w2 with _ | _ | res2
      · dsimp only
        cases cin
        · exact hw2
        · exact (List.sublist_append_left (allNotes notes) (allNotes working)).subperm
      · dsimp only
        refine (ih w2 [] (!cin) (cl || cin) c2).trans ?_
        rw [allNotes_nil, List.append_nil]
        exact hw2
      · dsimp only
        by_cases hres2 : res2 = []
        · rw [if_pos hres2]
          refine (ih w2 [] (!cin) (cl || cin) c2).trans ?_
          rw [allNotes_nil, List.append_nil]
          exact hw2
        · rw [if_neg hres2]
          dsimp only
          cases cin
          · exact hw2
          · exact (List.sublist_append_left (allNotes notes) (allNotes working)).subperm

/-- C9: whenever the first strategy round fails to produce a conflict-free
mapping, `dedup_paths` mutates the grouping object its caller passed in:
the swap-and-clear at the end of the failed round executes `clear()` on
the caller's dict object, and when the call ends (by return or raise) the
caller's object holds intermediate resolver state — a grouping whose notes
are drawn from the input's notes — rather than being left unchanged. -/
theorem dedup_mutates_caller (g : Grouping) (sch : Scheme)
    (hfail : firstRoundFails g sch = true) :
    dedupClearedCaller g sch = true
  ∧ (allNotes (dedupCallerFinal g sch)).Subperm (allNotes g) := by
  obtain ⟨s1, rest, hstr⟩ : ∃ s1 rest, schemeStrats sch = s1 :: rest := by
    cases sch
    · exact ⟨_, _, rfl⟩
    · exact ⟨_, _, rfl⟩
  unfold firstRoundFails at hfail
  rw [hstr] at hfail
  dsimp only at hfail
  rcases hpn : popNotes s1 g [] 0 with ⟨w1, e1, c1⟩
  rw [hpn] at hfail
  cases e1 with
  | some e => simp at hfail
  | none =>
    dsimp only at hfail
    rw [Bool.or_eq_true, decide_eq_true_eq, decide_eq_true_eq] at hfail
    have hw1 : (allNotes w1).Subperm (allNotes g) := by
      have := popNotes_sub s1 g [] 0
      rw [hpn, allNotes_nil, List.append_nil] at this
      exact this
    unfold dedupClearedCaller dedupCallerFinal dedup_pathsFull
    rw [hstr]
    simp only [dedupLoop, hpn]
    have hrec : (dedupLoop rest w1 [] (!true) (false || true) c1).clearedCaller = true
        ∧ (allNotes ((dedupLoop rest w1 [] (!true) (false || true) c1).callerFinal)).Subperm
            (allNotes g) := by
      constructor
      · rw [Bool.false_or]
        exact dedupLoop_cleared_mono rest w1 [] (!true) c1
      · refine (dedupLoop_caller_sub rest w1 [] (!true) (false || true) c1).trans ?_
        rw [allNotes_nil, List.append_nil]
        exact hw1
    rcases hfail with hf | hf
    · rw [hf]
      exact hrec
    · rw [hf]
      dsimp only
      rw [if_pos rfl]
      exact hrec


/-- Witness for C9 at a concrete grouping whose first round fails; the
final conjunct exhibits the mutation: the caller's dict ends up holding
intermediate state, not the grouping it passed in. -/
theorem dedup_mutates_caller_witness :
    firstRoundFails gMut Scheme.seqno = true
  ∧ dedupClearedCaller gMut Scheme.seqno = true
  ∧ (allNotes (dedupCallerFinal gMut Scheme.seqno)).Subperm (allNotes gMut)
  ∧ dedupCallerFinal gMut Scheme.seqno ≠ gMut :=
  ⟨by decide, (dedup_mutates_caller gMut Scheme.seqno (by decide)).1,
    (dedup_mutates_caller gMut Scheme.seqno (by decide)).2, by decide⟩
